import Mathlib

/-!
Shallow embedding of the hand-snake application (dannyxchen/hand-snake):
the motion extractor `detectMotion` (src/utils/visionUtils.ts), the
direction arbiter and speed policy of the game loop, the snake simulation
`updateSnake`, food spawning `spawnFood`, and the leaderboard logic
`saveScore` (src/components/SnakeGame.tsx).  Floating-point values are
modelled as rationals, JS numbers used as grid coordinates as integers.
-/

namespace HandSnake

/-- Grid position (src/types.ts `Position`). -/
structure Position where
  x : ℤ
  y : ℤ
  deriving DecidableEq

instance : Inhabited Position := ⟨⟨0, 0⟩⟩

/-- src/types.ts `Direction`. -/
inductive Direction where
  | UP
  | DOWN
  | LEFT
  | RIGHT
  deriving DecidableEq

/-- src/types.ts `GameState`. -/
inductive GameState where
  | IDLE
  | PLAYING
  | GAME_OVER
  deriving DecidableEq

/-- src/types.ts `ScoreEntry`. -/
structure ScoreEntry where
  name : String
  score : ℤ
  timestamp : ℤ
  deriving DecidableEq

/-- src/types.ts `MotionVector`; x and y are floats in [-1,1], modelled as rationals. -/
structure MotionVector where
  x : ℚ
  y : ℚ
  intensity : ℕ
  deriving DecidableEq

/-! ### Speed policy (SnakeGame: `BASE_SPEED`, `SPEED_DECREMENT`, `MIN_SPEED`) -/

/-- `const BASE_SPEED = 250; // ms per frame (Slower start)` -/
def BASE_SPEED : ℤ := 250

/-- `const SPEED_DECREMENT = 5; // ms faster per apple` -/
def SPEED_DECREMENT : ℤ := 5

/-- `const MIN_SPEED = 60; // Max speed cap` -/
def MIN_SPEED : ℤ := 60

/-- `const currentSpeed = Math.max(MIN_SPEED, BASE_SPEED - (scoreRef.current * SPEED_DECREMENT));` -/
def currentSpeed (score : ℤ) : ℤ :=
  max MIN_SPEED (BASE_SPEED - score * SPEED_DECREMENT)

/-! ### Direction arbiter (SnakeGame loop, "Direction Logic") -/

/-- `const THRESHOLD = 0.3;` -/
def THRESHOLD : ℚ := 3 / 10

/-- One arbitration step on the smoothed vector `(sx, sy)` with current
direction `d`, as in the game loop: dominant axis first, dead zone,
then the explicit anti-180°-turn guard. -/
def arbitrate (sx sy : ℚ) (d : Direction) : Direction :=
  if |sx| > |sy| then
    if |sx| > THRESHOLD then
      let newDir : Direction := if sx > 0 then .RIGHT else .LEFT
      if (newDir = .RIGHT ∧ d ≠ .LEFT) ∨ (newDir = .LEFT ∧ d ≠ .RIGHT) then newDir else d
    else d
  else
    if |sy| > THRESHOLD then
      let newDir : Direction := if sy > 0 then .DOWN else .UP
      if (newDir = .DOWN ∧ d ≠ .UP) ∨ (newDir = .UP ∧ d ≠ .DOWN) then newDir else d
    else d

/-- The exact reverse of a direction (180° turn). -/
def reverseDir : Direction → Direction
  | .UP => .DOWN
  | .DOWN => .UP
  | .LEFT => .RIGHT
  | .RIGHT => .LEFT

/-! ### Snake simulation (SnakeGame: `updateSnake`, `spawnFood`, `gameOver`, `saveScore`) -/

/-- `const INITIAL_SNAKE = [{ x: 10, y: 10 }];` -/
def INITIAL_SNAKE : List Position := [⟨10, 10⟩]

/-- The `switch (directionRef.current)` head displacement in `updateSnake`. -/
def movePos (p : Position) : Direction → Position
  | .UP => ⟨p.x, p.y - 1⟩
  | .DOWN => ⟨p.x, p.y + 1⟩
  | .LEFT => ⟨p.x - 1, p.y⟩
  | .RIGHT => ⟨p.x + 1, p.y⟩

/-- `head.x < 0 || head.x >= COLS || head.y < 0 || head.y >= ROWS` -/
def wallHit (cols rows : ℤ) (p : Position) : Bool :=
  p.x < 0 || cols ≤ p.x || p.y < 0 || rows ≤ p.y

/-- `snakeRef.current.some(segment => segment.x === head.x && segment.y === head.y)` -/
def selfHit (snake : List Position) (p : Position) : Bool :=
  snake.any fun seg => seg.x = p.x && seg.y = p.y

/-- `spawnFood`: `x = Math.floor(Math.random() * (cols - 2)) + 1` and likewise for y.
`rx`/`ry` are the results of the two floor-of-random draws, so a draw is
valid when `rx < cols - 2` and `ry < rows - 2`. -/
def spawnFood (rx ry : ℕ) : Position := ⟨(rx : ℤ) + 1, (ry : ℤ) + 1⟩

/-- Descending insertion of a score entry (stable, later ties go behind). -/
def insertDesc (e : ScoreEntry) : List ScoreEntry → List ScoreEntry
  | [] => [e]
  | a :: t => if a.score < e.score then e :: a :: t else a :: insertDesc e t

/-- `.sort((a, b) => b.score - a.score)`: stable descending sort by score. -/
def sortDesc : List ScoreEntry → List ScoreEntry
  | [] => []
  | a :: t => insertDesc a (sortDesc t)

/-- `saveScore`: `[...leaderboard, entry].sort((a, b) => b.score - a.score).slice(0, 10)`. -/
def saveScore (lb : List ScoreEntry) (e : ScoreEntry) : List ScoreEntry :=
  (sortDesc (lb ++ [e])).take 10

/-- Folding a sequence of saves into an initially empty stored leaderboard. -/
def saveAll (es : List ScoreEntry) : List ScoreEntry := es.foldl saveScore []

/-- The mutable game data touched by `updateSnake`/`gameOver` in one record:
grid dimensions (`COLS`/`ROWS`, fixed per run), `snakeRef`, `foodRef`,
`directionRef`, `scoreRef`, the game state and the leaderboard. -/
structure Game where
  cols : ℤ
  rows : ℤ
  snake : List Position
  food : Position
  dir : Direction
  score : ℤ
  state : GameState
  leaderboard : List ScoreEntry
  deriving DecidableEq

/-- `gameOver()`: set state to GAME_OVER and `saveScore(scoreRef.current)`;
the second component is the `ScoreEntry` handed to the leaderboard store
(`{ name: playerName, score: finalScore, timestamp: Date.now() }`). -/
def gameOverStep (g : Game) (name : String) (now : ℤ) : Game × Option ScoreEntry :=
  let e : ScoreEntry := ⟨name, g.score, now⟩
  ({ g with state := .GAME_OVER, leaderboard := saveScore g.leaderboard e }, some e)

/-- `updateSnake()`: move the head, check wall and self collision against the
whole pre-move body, then prepend the head; on food contact increment the
score and respawn food without popping the tail, otherwise pop the tail. -/
def updateSnake (g : Game) (name : String) (now : ℤ) (rx ry : ℕ) : Game × Option ScoreEntry :=
  let hd := movePos g.snake.headI g.dir
  if wallHit g.cols g.rows hd then gameOverStep g name now
  else if selfHit g.snake hd then gameOverStep g name now
  else
    let newSnake := hd :: g.snake
    if hd.x = g.food.x ∧ hd.y = g.food.y then
      ({ g with snake := newSnake, score := g.score + 1, food := spawnFood rx ry }, none)
    else
      ({ g with snake := newSnake.dropLast }, none)

/-- `startGame()`: fresh run state (score 0, initial snake, RIGHT, food spawned). -/
def startGame (cols rows : ℤ) (lb : List ScoreEntry) (rx ry : ℕ) : Game :=
  ⟨cols, rows, INITIAL_SNAKE, spawnFood rx ry, .RIGHT, 0, .PLAYING, lb⟩

/-- One tick's inputs to the simulation: the direction committed by the
arbiter before this advance, the timestamp, and the two food-spawn draws. -/
structure TickInput where
  dir : Direction
  now : ℤ
  rx : ℕ
  ry : ℕ

/-- One scheduled `updateSnake` call: the loop only runs while PLAYING. -/
def stepInput (name : String) (g : Game) (t : TickInput) : Game :=
  if g.state = .PLAYING then (updateSnake { g with dir := t.dir } name t.now t.rx t.ry).1 else g

/-- A sequence of advances. -/
def runGame (name : String) (g : Game) (ts : List TickInput) : Game :=
  ts.foldl (stepInput name) g

/-! ### Motion extractor (src/utils/visionUtils.ts `detectMotion`, mirror-corrected
version: stride 8, per-pixel noise threshold 25, relative threshold 0.001,
sensitivity 0.5, `normX = (centerX - avgX) / (centerX * 0.5)`). -/

/-- The sampled coordinates of one axis: `for (v = 0; v < m; v += stride)` with stride 8. -/
def sampleCoords (m : ℕ) : List ℕ :=
  (List.range ((m + 7) / 8)).map fun i => 8 * i

/-- All sampled pixel coordinates, outer loop over y, inner loop over x. -/
def samplePoints (w h : ℕ) : List (ℕ × ℕ) :=
  (sampleCoords h).flatMap fun y => (sampleCoords w).map fun x => (x, y)

/-- The accumulators of the pixel loop: `changeCount`, `totalX`, `totalY`. -/
structure Stats where
  changeCount : ℕ
  totalX : ℕ
  totalY : ℕ
  deriving DecidableEq

/-- `rDiff + gDiff + bDiff` at sampled pixel (x, y): sum of per-channel
absolute differences, with `i = (y * width + x) * 4`. -/
def chanSum (p c : ℕ → ℕ) (w x y : ℕ) : ℕ :=
  ((c ((y * w + x) * 4) : ℤ) - (p ((y * w + x) * 4) : ℤ)).natAbs
    + ((c ((y * w + x) * 4 + 1) : ℤ) - (p ((y * w + x) * 4 + 1) : ℤ)).natAbs
    + ((c ((y * w + x) * 4 + 2) : ℤ) - (p ((y * w + x) * 4 + 2) : ℤ)).natAbs

/-- `const diff = (rDiff + gDiff + bDiff) / 3;` -/
def pixDiff (p c : ℕ → ℕ) (w x y : ℕ) : ℚ :=
  (chanSum p c w x y : ℚ) / 3

/-- Body of the pixel loop: `if (diff > 25) { changeCount++; totalX += x; totalY += y; }`. -/
def stepPixel (p c : ℕ → ℕ) (w : ℕ) (s : Stats) (xy : ℕ × ℕ) : Stats :=
  if 25 < pixDiff p c w xy.1 xy.2 then ⟨s.changeCount + 1, s.totalX + xy.1, s.totalY + xy.2⟩
  else s

/-- The whole pixel loop of `detectMotion`. -/
def motionStats (p c : ℕ → ℕ) (w h : ℕ) : Stats :=
  (samplePoints w h).foldl (stepPixel p c w) ⟨0, 0, 0⟩

/-- `const motionThreshold = (width * height) / (stride * stride) * 0.001;` -/
def motionThreshold (w h : ℕ) : ℚ :=
  ((w * h : ℕ) : ℚ) / (8 * 8) * (1 / 1000)

/-- `Math.max(-1, Math.min(1, v))`. -/
def clamp1 (q : ℚ) : ℚ := max (-1) (min 1 q)

/-- `detectMotion`.  `prev` is the retained previous frame (`none` on the very
first call); frames are RGBA byte buffers modelled as index functions. -/
def detectMotion (prev : Option (ℕ → ℕ)) (cur : ℕ → ℕ) (w h : ℕ) : MotionVector :=
  let s : Stats := match prev with
    | none => ⟨0, 0, 0⟩
    | some p => motionStats p cur w h
  if (s.changeCount : ℚ) < motionThreshold w h then ⟨0, 0, 0⟩
  else
    let avgX : ℚ := (s.totalX : ℚ) / (s.changeCount : ℚ)
    let avgY : ℚ := (s.totalY : ℚ) / (s.changeCount : ℚ)
    let centerX : ℚ := (w : ℚ) / 2
    let centerY : ℚ := (h : ℚ) / 2
    ⟨clamp1 ((centerX - avgX) / (centerX * (1 / 2))),
      clamp1 ((avgY - centerY) / (centerY * (1 / 2))),
      s.changeCount⟩

/-- An all-zero (black) frame. -/
def blackFrame : ℕ → ℕ := fun _ => 0

/-- A synthetic frame that is white exactly on the contiguous column block
`[a, b]` and black elsewhere (RGBA layout, pixel index `i / 4`, column
`(i / 4) % w`). -/
def blockFrame (w a b : ℕ) : ℕ → ℕ := fun i =>
  if a ≤ (i / 4) % w ∧ (i / 4) % w ≤ b then 255 else 0

/-- The sampled columns falling inside the block `[a, b]`. -/
def blockCols (w a b : ℕ) : List ℕ :=
  (sampleCoords w).filter fun x => a ≤ x && x ≤ b

/-- The mean sampled column of the block: the x centroid of the changed pixels
of the frame pair `(blackFrame, blockFrame w a b)`. -/
def blockMean (w a b : ℕ) : ℚ :=
  ((blockCols w a b).sum : ℚ) / ((blockCols w a b).length : ℚ)

/-- Nat-level equivalent of `stepPixel` (`diff > 25` iff the channel sum
exceeds 75), used to evaluate the pixel loop on concrete inputs. -/
def stepPixelB (p c : ℕ → ℕ) (w : ℕ) (s : Stats) (xy : ℕ × ℕ) : Stats :=
  if 75 < chanSum p c w xy.1 xy.2 then ⟨s.changeCount + 1, s.totalX + xy.1, s.totalY + xy.2⟩
  else s

/-! ### Predicates used by the theorems -/

/-- While PLAYING, the snake's length is one more than the score. -/
def lenScoreInv (g : Game) : Prop :=
  g.state = .PLAYING → (g.snake.length : ℤ) = 1 + g.score

/-- Sorted descending by score (ties allowed), the leaderboard order. -/
def SortedDesc (l : List ScoreEntry) : Prop :=
  l.Pairwise fun x y => y.score ≤ x.score

/-- Strictly sorted descending by score. -/
def StrictDesc (l : List ScoreEntry) : Prop :=
  l.Pairwise fun x y => y.score < x.score

/-- All scores pairwise distinct. -/
def DistinctScores (l : List ScoreEntry) : Prop :=
  l.Pairwise fun x y => x.score ≠ y.score

/-- Invariant tying the stored leaderboard to the whole sequence of entries
seen so far: the store keeps `min seen 10` entries, all of them seen, every
seen-but-not-stored entry scores strictly below everything stored, and the
store is strictly descending. -/
def StoreInv (seen stored : List ScoreEntry) : Prop :=
  stored.length = min seen.length 10 ∧
  (∀ x ∈ stored, x ∈ seen) ∧
  (∀ y ∈ seen, y ∉ stored → ∀ x ∈ stored, y.score < x.score) ∧
  StrictDesc stored

/-! ## Theorems -/

/-- C1: the wait time between `advance()` calls is
`max(MIN_SPEED, BASE_SPEED - score * SPEED_DECREMENT)`; it is non-increasing
as the score increases and never drops below `MIN_SPEED`. -/
theorem speed_policy (s : ℤ) (_hs : 0 ≤ s) :
    currentSpeed s = max MIN_SPEED (BASE_SPEED - s * SPEED_DECREMENT) ∧
    currentSpeed (s + 1) ≤ currentSpeed s ∧
    MIN_SPEED ≤ currentSpeed s := by
  refine ⟨rfl, max_le_max le_rfl (by unfold BASE_SPEED SPEED_DECREMENT; linarith),
    le_max_left _ _⟩

/-- Witness for `speed_policy` at score 3. -/
theorem speed_policy_witness :
    currentSpeed 3 = max MIN_SPEED (BASE_SPEED - 3 * SPEED_DECREMENT) ∧
    currentSpeed (3 + 1) ≤ currentSpeed 3 ∧
    MIN_SPEED ≤ currentSpeed 3 :=
  speed_policy 3 (by decide)

/-- C5: one arbitration step never yields the exact reverse of the current
direction, whatever the smoothed vector is. -/
theorem arbiter_no_reversal (sx sy : ℚ) (d : Direction) :
    arbitrate sx sy d ≠ reverseDir d := by
  cases d <;> unfold arbitrate <;> split_ifs <;> simp_all [reverseDir]

/-- Witness for `arbiter_no_reversal` at vector (1, 0), direction RIGHT. -/
theorem arbiter_no_reversal_witness :
    arbitrate 1 0 Direction.RIGHT ≠ reverseDir Direction.RIGHT :=
  arbiter_no_reversal 1 0 Direction.RIGHT

/-- C10: on an exact |x| = |y| tie, the horizontal branch (which requires a
strictly greater |x|) is skipped, so the arbitrated direction is either
unchanged or vertical (UP or DOWN); LEFT/RIGHT can never be newly selected. -/
theorem tie_prefers_vertical (sx sy : ℚ) (d : Direction) (h : |sx| = |sy|) :
    arbitrate sx sy d = d ∨ arbitrate sx sy d = Direction.UP ∨
      arbitrate sx sy d = Direction.DOWN := by
  unfold arbitrate
  rw [if_neg (by rw [h]; exact lt_irrefl _)]
  cases d <;> split_ifs <;> simp_all

/-- Witness for `tie_prefers_vertical` at the tied vector (1/2, 1/2). -/
theorem tie_prefers_vertical_witness :
    arbitrate (1/2) (1/2) Direction.RIGHT = Direction.RIGHT ∨
    arbitrate (1/2) (1/2) Direction.RIGHT = Direction.UP ∨
    arbitrate (1/2) (1/2) Direction.RIGHT = Direction.DOWN :=
  tie_prefers_vertical (1/2) (1/2) Direction.RIGHT rfl

/-- C4 counterexample: at run start with the valid draws rx = ry = 9 on the
30×20 grid, the spawned food is (10, 10), which is exactly the single
segment of the initial snake — food can coincide with the snake. -/
theorem spawnFood_overlap_counterexample :
    (startGame 30 20 [] 9 9).food ∈ (startGame 30 20 [] 9 9).snake ∧
    (9 : ℤ) < 30 - 2 ∧ (9 : ℤ) < 20 - 2 := by
  decide

/-- C4 amended: food spawning ignores the snake entirely; what holds is that
for every valid draw the food lands on the interior ring
`1 ≤ x ≤ cols - 2`, `1 ≤ y ≤ rows - 2` of the grid. -/
theorem spawnFood_in_bounds (cols rows : ℤ) (rx ry : ℕ)
    (hx : (rx : ℤ) < cols - 2) (hy : (ry : ℤ) < rows - 2) :
    1 ≤ (spawnFood rx ry).x ∧ (spawnFood rx ry).x ≤ cols - 2 ∧
    1 ≤ (spawnFood rx ry).y ∧ (spawnFood rx ry).y ≤ rows - 2 := by
  dsimp only [spawnFood]
  refine ⟨by omega, by omega, by omega, by omega⟩

/-- Witness for `spawnFood_in_bounds` on the 30×20 grid with draws (0, 0). -/
theorem spawnFood_in_bounds_witness :
    1 ≤ (spawnFood 0 0).x ∧ (spawnFood 0 0).x ≤ 30 - 2 ∧
    1 ≤ (spawnFood 0 0).y ∧ (spawnFood 0 0).y ≤ 20 - 2 :=
  spawnFood_in_bounds 30 20 0 0 (by decide) (by decide)

/-- C3: when the new head hits a wall or an existing segment, `updateSnake`
moves the state to GAME_OVER and hands the leaderboard store an entry
carrying the current score, keyed by player name and timestamp. -/
theorem collision_persists_score (g : Game) (name : String) (now : ℤ) (rx ry : ℕ)
    (hc : wallHit g.cols g.rows (movePos g.snake.headI g.dir) = true ∨
      selfHit g.snake (movePos g.snake.headI g.dir) = true) :
    (updateSnake g name now rx ry).1.state = GameState.GAME_OVER ∧
    (updateSnake g name now rx ry).2 = some ⟨name, g.score, now⟩ ∧
    (updateSnake g name now rx ry).1.leaderboard =
      saveScore g.leaderboard ⟨name, g.score, now⟩ := by
  unfold updateSnake gameOverStep
  rcases hc with h | h
  · simp [h]
  · by_cases hw : wallHit g.cols g.rows (movePos g.snake.headI g.dir) <;> simp [hw, h]

/-- Witness for `collision_persists_score`: the spec scenario, snake at (0,5)
heading LEFT on the 30×20 grid. -/
theorem collision_persists_score_witness :
    (updateSnake ⟨30, 20, [⟨0, 5⟩], ⟨1, 1⟩, .LEFT, 0, .PLAYING, []⟩ "p" 7 0 0).1.state =
      GameState.GAME_OVER ∧
    (updateSnake ⟨30, 20, [⟨0, 5⟩], ⟨1, 1⟩, .LEFT, 0, .PLAYING, []⟩ "p" 7 0 0).2 =
      some ⟨"p", 0, 7⟩ ∧
    (updateSnake ⟨30, 20, [⟨0, 5⟩], ⟨1, 1⟩, .LEFT, 0, .PLAYING, []⟩ "p" 7 0 0).1.leaderboard =
      saveScore [] ⟨"p", 0, 7⟩ :=
  collision_persists_score ⟨30, 20, [⟨0, 5⟩], ⟨1, 1⟩, .LEFT, 0, .PLAYING, []⟩ "p" 7 0 0
    (Or.inl (by decide))

/-- C9: moving the head onto the cell holding the tail tip ends the run:
the self-collision test runs against the whole pre-move body, before any
tail segment is removed, so the run ends with the score unchanged. -/
theorem tail_cell_collision (g : Game) (name : String) (now : ℤ) (rx ry : ℕ)
    (ht : g.snake.getLast? = some (movePos g.snake.headI g.dir))
    (hw : wallHit g.cols g.rows (movePos g.snake.headI g.dir) = false) :
    (updateSnake g name now rx ry).1.state = GameState.GAME_OVER ∧
    (updateSnake g name now rx ry).1.score = g.score ∧
    (updateSnake g name now rx ry).1.snake = g.snake := by
  have hmem : movePos g.snake.headI g.dir ∈ g.snake := List.mem_of_getLast?_eq_some ht
  have hs : selfHit g.snake (movePos g.snake.headI g.dir) = true := by
    unfold selfHit
    rw [List.any_eq_true]
    exact ⟨_, hmem, by simp⟩
  unfold updateSnake gameOverStep
  simp [hw, hs]

/-- Witness for `tail_cell_collision`: a 2×2 loop whose head moves into the
tail-tip cell (6, 6). -/
theorem tail_cell_collision_witness :
    (updateSnake ⟨30, 20, [⟨6, 5⟩, ⟨5, 5⟩, ⟨5, 6⟩, ⟨6, 6⟩], ⟨1, 1⟩, .DOWN, 0, .PLAYING, []⟩
        "p" 7 0 0).1.state = GameState.GAME_OVER ∧
    (updateSnake ⟨30, 20, [⟨6, 5⟩, ⟨5, 5⟩, ⟨5, 6⟩, ⟨6, 6⟩], ⟨1, 1⟩, .DOWN, 0, .PLAYING, []⟩
        "p" 7 0 0).1.score = 0 ∧
    (updateSnake ⟨30, 20, [⟨6, 5⟩, ⟨5, 5⟩, ⟨5, 6⟩, ⟨6, 6⟩], ⟨1, 1⟩, .DOWN, 0, .PLAYING, []⟩
        "p" 7 0 0).1.snake = [⟨6, 5⟩, ⟨5, 5⟩, ⟨5, 6⟩, ⟨6, 6⟩] :=
  tail_cell_collision ⟨30, 20, [⟨6, 5⟩, ⟨5, 5⟩, ⟨5, 6⟩, ⟨6, 6⟩], ⟨1, 1⟩, .DOWN, 0, .PLAYING, []⟩
    "p" 7 0 0 (by decide) (by decide)

/-- Helper: one scheduled advance preserves the length/score relation. -/
theorem stepInput_lenScoreInv (name : String) (g : Game) (t : TickInput)
    (h : lenScoreInv g) : lenScoreInv (stepInput name g t) := by
  unfold stepInput
  by_cases hp : g.state = GameState.PLAYING
  · rw [if_pos hp]
    unfold updateSnake gameOverStep
    dsimp only
    split_ifs with h1 h2 h3
    · intro hcon; simp at hcon
    · intro hcon; simp at hcon
    · intro _
      have := h hp
      simp only [List.length_cons]
      push_cast
      omega
    · intro _
      have := h hp
      simp only [List.length_dropLast, List.length_cons]
      push_cast
      omega
  · rw [if_neg hp]
    exact h

/-- Helper: any run of scheduled advances preserves the relation. -/
theorem runGame_lenScoreInv (name : String) (g : Game) (ts : List TickInput)
    (h : lenScoreInv g) : lenScoreInv (runGame name g ts) := by
  unfold runGame
  induction ts generalizing g with
  | nil => exact h
  | cons t ts ih => exact ih _ (stepInput_lenScoreInv name g t h)

/-- C6: on a collision-free advance, eating the food adds exactly one to the
score and one to the length and respawns the food at once; otherwise score,
food and length are unchanged.  Consequently, along any collision-free run
from a fresh start, the snake's length is 1 plus the number of food items
eaten (the score). -/
theorem food_growth_length :
    (∀ (g : Game) (name : String) (now : ℤ) (rx ry : ℕ),
      wallHit g.cols g.rows (movePos g.snake.headI g.dir) = false →
      selfHit g.snake (movePos g.snake.headI g.dir) = false →
      (((movePos g.snake.headI g.dir).x = g.food.x ∧
          (movePos g.snake.headI g.dir).y = g.food.y →
        (updateSnake g name now rx ry).1.score = g.score + 1 ∧
        (updateSnake g name now rx ry).1.food = spawnFood rx ry ∧
        (updateSnake g name now rx ry).1.snake.length = g.snake.length + 1) ∧
      (¬((movePos g.snake.headI g.dir).x = g.food.x ∧
          (movePos g.snake.headI g.dir).y = g.food.y) →
        (updateSnake g name now rx ry).1.score = g.score ∧
        (updateSnake g name now rx ry).1.food = g.food ∧
        (updateSnake g name now rx ry).1.snake.length = g.snake.length))) ∧
    (∀ (cols rows : ℤ) (lb : List ScoreEntry) (rx ry : ℕ) (name : String)
        (ts : List TickInput),
      (runGame name (startGame cols rows lb rx ry) ts).state = GameState.PLAYING →
      ((runGame name (startGame cols rows lb rx ry) ts).snake.length : ℤ) =
        1 + (runGame name (startGame cols rows lb rx ry) ts).score) := by
  constructor
  · intro g name now rx ry hw hself
    constructor
    · intro heat
      unfold updateSnake
      rw [if_neg (by simp [hw]), if_neg (by simp [hself]), if_pos heat]
      simp
    · intro heat
      unfold updateSnake
      rw [if_neg (by simp [hw]), if_neg (by simp [hself]), if_neg heat]
      simp
  · intro cols rows lb rx ry name ts
    exact runGame_lenScoreInv name _ ts (fun _ => by simp [startGame, INITIAL_SNAKE])

/-- Witness for `food_growth_length`: the spec scenario — snake at (5,5)
heading RIGHT with food at (6,5) eats and grows, and a fresh 30×20 run after
zero advances satisfies length = 1 + score. -/
theorem food_growth_length_witness :
    ((updateSnake ⟨30, 20, [⟨5, 5⟩], ⟨6, 5⟩, .RIGHT, 0, .PLAYING, []⟩ "p" 7 3 3).1.score =
        0 + 1 ∧
      (updateSnake ⟨30, 20, [⟨5, 5⟩], ⟨6, 5⟩, .RIGHT, 0, .PLAYING, []⟩ "p" 7 3 3).1.food =
        spawnFood 3 3 ∧
      (updateSnake ⟨30, 20, [⟨5, 5⟩], ⟨6, 5⟩, .RIGHT, 0, .PLAYING, []⟩ "p" 7 3
            3).1.snake.length = 1 + 1) ∧
    ((runGame "p" (startGame 30 20 [] 0 0) []).snake.length : ℤ) =
      1 + (runGame "p" (startGame 30 20 [] 0 0) []).score :=
  ⟨(food_growth_length.1 ⟨30, 20, [⟨5, 5⟩], ⟨6, 5⟩, .RIGHT, 0, .PLAYING, []⟩ "p" 7 3 3
        (by decide) (by decide)).1 (by decide),
    food_growth_length.2 30 20 [] 0 0 "p" [] (by decide)⟩

/-- Helper: the channel sum of a frame against itself is zero. -/
theorem chanSum_self (p f : ℕ → ℕ) (hp : ∀ i, p i = f i) (w x y : ℕ) :
    chanSum p f w x y = 0 := by
  unfold chanSum
  simp [hp]

/-- Helper: a fold whose step never changes the accumulator is the identity. -/
theorem foldl_fixed {α β : Type} (f : β → α → β) (l : List α) (s : β)
    (hf : ∀ b a, f b a = b) : l.foldl f s = s := by
  induction l generalizing s with
  | nil => rfl
  | cons a l ih => rw [List.foldl_cons, hf]; exact ih s

/-- Helper: identical frames produce empty motion statistics. -/
theorem motionStats_self (p f : ℕ → ℕ) (hp : ∀ i, p i = f i) (w h : ℕ) :
    motionStats p f w h = ⟨0, 0, 0⟩ := by
  unfold motionStats
  apply foldl_fixed
  intro s xy
  unfold stepPixel pixDiff
  rw [chanSum_self p f hp]
  norm_num

/-- Helper: the relative motion threshold is positive on a nonempty frame. -/
theorem motionThreshold_pos {w h : ℕ} (hw : 0 < w) (hh : 0 < h) :
    0 < motionThreshold w h := by
  unfold motionThreshold
  have hwh : (0 : ℚ) < ((w * h : ℕ) : ℚ) := by
    exact_mod_cast Nat.mul_pos hw hh
  positivity

/-- C7: on the very first call (no previous frame) and on any frame pair with
zero pixel difference, `detectMotion` returns the zero vector with
intensity 0. -/
theorem zero_diff_zero_vector (w h : ℕ) (f p : ℕ → ℕ) (hw : 0 < w) (hh : 0 < h)
    (hp : ∀ i, p i = f i) :
    detectMotion none f w h = ⟨0, 0, 0⟩ ∧ detectMotion (some p) f w h = ⟨0, 0, 0⟩ := by
  have hthr := motionThreshold_pos hw hh
  constructor
  · unfold detectMotion
    dsimp only
    rw [if_pos (by exact_mod_cast hthr)]
  · unfold detectMotion
    dsimp only
    rw [motionStats_self p f hp]
    dsimp only
    rw [if_pos (by exact_mod_cast hthr)]

/-- Witness for `zero_diff_zero_vector` on an 8×8 black frame pair. -/
theorem zero_diff_zero_vector_witness :
    detectMotion none (fun _ => 0) 8 8 = ⟨0, 0, 0⟩ ∧
    detectMotion (some fun _ => 0) (fun _ => 0) 8 8 = ⟨0, 0, 0⟩ :=
  zero_diff_zero_vector 8 8 (fun _ => 0) (fun _ => 0) (by decide) (by decide)
    (fun _ => rfl)

/-- Helper: `diff > 25` holds iff the raw channel sum exceeds 75. -/
theorem pixDiff_gt (p c : ℕ → ℕ) (w x y : ℕ) :
    25 < pixDiff p c w x y ↔ 75 < chanSum p c w x y := by
  unfold pixDiff
  rw [lt_div_iff₀ (by norm_num : (0:ℚ) < 3)]
  norm_cast

/-- Helper: the pixel loop computed with the Nat-level step function. -/
theorem motionStats_eval (p c : ℕ → ℕ) (w h : ℕ) :
    motionStats p c w h = (samplePoints w h).foldl (stepPixelB p c w) ⟨0, 0, 0⟩ := by
  unfold motionStats
  congr 1
  funext s xy
  unfold stepPixel stepPixelB
  simp only [pixDiff_gt]

/-- Helper: sampled coordinates lie strictly inside the axis length. -/
theorem sampleCoords_lt {m x : ℕ} (hx : x ∈ sampleCoords m) : x < m := by
  unfold sampleCoords at hx
  simp only [List.mem_map, List.mem_range] at hx
  obtain ⟨i, hi, rfl⟩ := hx
  omega

/-- Helper: channel sum of the black/block frame pair at a sampled pixel. -/
theorem chanSum_block (w a b x y : ℕ) (hx : x < w) :
    chanSum blackFrame (blockFrame w a b) w x y =
      if a ≤ x ∧ x ≤ b then 765 else 0 := by
  unfold chanSum blackFrame blockFrame
  set k := y * w + x with hk
  have e0 : k * 4 / 4 = k := by omega
  have e1 : (k * 4 + 1) / 4 = k := by omega
  have e2 : (k * 4 + 2) / 4 = k := by omega
  have em : k % w = x := by
    rw [hk, Nat.mul_comm y w, Nat.mul_add_mod]
    exact Nat.mod_eq_of_lt hx
  rw [e0, e1, e2, em]
  split
  · decide
  · decide

/-- Helper: one row of the pixel loop over the block frame pair. -/
theorem foldl_block_row (w a b y : ℕ) (xs : List ℕ) (hxs : ∀ x ∈ xs, x < w) (s : Stats) :
    ((xs.map fun x => (x, y)).foldl (stepPixel blackFrame (blockFrame w a b) w) s) =
      ⟨s.changeCount + (xs.filter fun x => a ≤ x && x ≤ b).length,
        s.totalX + (xs.filter fun x => a ≤ x && x ≤ b).sum,
        s.totalY + (xs.filter fun x => a ≤ x && x ≤ b).length * y⟩ := by
  induction xs generalizing s with
  | nil => simp
  | cons x t ih =>
    have hx : x < w := hxs x (List.mem_cons_self x t)
    rw [List.map_cons, List.foldl_cons, ih (fun z hz => hxs z (List.mem_cons_of_mem x hz))]
    have hstep : stepPixel blackFrame (blockFrame w a b) w s (x, y) =
        if a ≤ x ∧ x ≤ b then ⟨s.changeCount + 1, s.totalX + x, s.totalY + y⟩ else s := by
      unfold stepPixel
      simp only [pixDiff_gt]
      rw [chanSum_block w a b x y hx]
      split
      · rw [if_pos (by norm_num)]
      · rw [if_neg (by norm_num)]
    rw [hstep]
    by_cases hab : a ≤ x ∧ x ≤ b
    · rw [if_pos hab, List.filter_cons_of_pos (by simpa using hab)]
      simp only [List.length_cons, List.sum_cons, Stats.mk.injEq]
      refine ⟨by omega, by omega, by ring⟩
    · rw [if_neg hab, List.filter_cons_of_neg (by simpa using hab)]

/-- Helper: the whole pixel loop over the block frame pair, factored into the
per-axis sample statistics. -/
theorem foldl_block_rows (w a b : ℕ) (ys : List ℕ) (s : Stats) :
    ((ys.flatMap fun y => (sampleCoords w).map fun x => (x, y)).foldl
        (stepPixel blackFrame (blockFrame w a b) w) s) =
      ⟨s.changeCount + ys.length * (blockCols w a b).length,
        s.totalX + ys.length * (blockCols w a b).sum,
        s.totalY + (blockCols w a b).length * ys.sum⟩ := by
  induction ys generalizing s with
  | nil => simp
  | cons y t ih =>
    rw [List.flatMap_cons, List.foldl_append,
      foldl_block_row w a b y _ (fun x hx => sampleCoords_lt hx) s, ih]
    unfold blockCols
    simp only [Stats.mk.injEq, List.length_cons, List.sum_cons]
    refine ⟨by ring, by ring, by ring⟩

/-- Helper: closed form of the motion statistics of the block frame pair. -/
theorem motionStats_block (w h a b : ℕ) :
    motionStats blackFrame (blockFrame w a b) w h =
      ⟨(sampleCoords h).length * (blockCols w a b).length,
        (sampleCoords h).length * (blockCols w a b).sum,
        (blockCols w a b).length * (sampleCoords h).sum⟩ := by
  unfold motionStats samplePoints
  rw [foldl_block_rows]
  simp

/-- Helper: a changed-pixel count reaching the threshold forces nonempty
sampled rows and a nonempty block. -/
theorem blockCols_pos (w h a b : ℕ) (hw : 0 < w) (hh : 0 < h)
    (hthr : motionThreshold w h ≤
      ((motionStats blackFrame (blockFrame w a b) w h).changeCount : ℚ)) :
    0 < (blockCols w a b).length ∧ 0 < (sampleCoords h).length := by
  have hpos : 0 < (motionStats blackFrame (blockFrame w a b) w h).changeCount := by
    by_contra h0
    push_neg at h0
    have h00 : (motionStats blackFrame (blockFrame w a b) w h).changeCount = 0 := by omega
    rw [h00] at hthr
    have := motionThreshold_pos hw hh
    simp at hthr
    linarith
  rw [motionStats_block] at hpos
  dsimp only at hpos
  have hne := Nat.pos_iff_ne_zero.mp hpos
  rw [Nat.mul_ne_zero_iff] at hne
  exact ⟨Nat.pos_of_ne_zero hne.2, Nat.pos_of_ne_zero hne.1⟩

/-- Helper: the centroid of a block is bounded by the block's right edge. -/
theorem blockMean_le (w a b : ℕ) (hpos : 0 < (blockCols w a b).length) :
    blockMean w a b ≤ (b : ℚ) := by
  have hmem : ∀ x ∈ blockCols w a b, x ≤ b := by
    intro x hx
    unfold blockCols at hx
    simp only [List.mem_filter] at hx
    have h2 := hx.2
    simp only [Bool.and_eq_true, decide_eq_true_eq] at h2
    exact h2.2
  have hsum : (blockCols w a b).sum ≤ (blockCols w a b).length * b := by
    simpa [smul_eq_mul] using List.sum_le_card_nsmul (blockCols w a b) b hmem
  unfold blockMean
  rw [div_le_iff₀ (by exact_mod_cast hpos)]
  calc ((blockCols w a b).sum : ℚ) ≤ (((blockCols w a b).length * b : ℕ) : ℚ) := by
        exact_mod_cast hsum
    _ = (b : ℚ) * ((blockCols w a b).length : ℚ) := by push_cast; ring

/-- Helper: above the threshold, the x component of `detectMotion` on the
block frame pair is the clamped, mirror-corrected, normalized displacement
of the block centroid from the frame center. -/
theorem blockMotion_x (w h a b : ℕ) (hw : 0 < w) (hh : 0 < h)
    (hthr : motionThreshold w h ≤
      ((motionStats blackFrame (blockFrame w a b) w h).changeCount : ℚ)) :
    (detectMotion (some blackFrame) (blockFrame w a b) w h).x =
      clamp1 (((w : ℚ) / 2 - blockMean w a b) / ((w : ℚ) / 2 * (1 / 2))) := by
  obtain ⟨hB, hY⟩ := blockCols_pos w h a b hw hh hthr
  unfold detectMotion
  dsimp only
  rw [if_neg (not_lt.mpr hthr)]
  rw [motionStats_block]
  dsimp only
  have havg : (((sampleCoords h).length * (blockCols w a b).sum : ℕ) : ℚ) /
      (((sampleCoords h).length * (blockCols w a b).length : ℕ) : ℚ) = blockMean w a b := by
    unfold blockMean
    push_cast
    rw [mul_div_mul_left _ _ (by exact_mod_cast Nat.pos_iff_ne_zero.mp hY)]
  rw [havg]

/-- Helper: clamping preserves positivity. -/
theorem clamp1_pos {q : ℚ} (hq : 0 < q) : 0 < clamp1 q := by
  unfold clamp1
  exact lt_of_lt_of_le (lt_min (by norm_num) hq) (le_max_right _ _)

/-- Helper: clamping is monotone. -/
theorem clamp1_mono {q r : ℚ} (h : q ≤ r) : clamp1 q ≤ clamp1 r :=
  max_le_max le_rfl (min_le_min le_rfl h)

/-- Helper: clamping saturates at 1. -/
theorem clamp1_eq_one {q : ℚ} (h : 1 ≤ q) : clamp1 q = 1 := by
  unfold clamp1
  rw [min_eq_left h, max_eq_right (by norm_num)]

/-- C2: for the synthetic frame pairs changing exactly a contiguous column
block, with the changed-pixel count reaching the relative threshold: when the
block lies strictly left of the horizontal center the returned x is positive
(mirror-correction law); x is monotone in the block centroid's displacement
from center; and once the centroid displacement reaches half the center
offset, x saturates at exactly +1. -/
theorem mirror_correction :
    (∀ w h a b : ℕ, 0 < w → 0 < h → 2 * b < w →
      motionThreshold w h ≤
        ((motionStats blackFrame (blockFrame w a b) w h).changeCount : ℚ) →
      0 < (detectMotion (some blackFrame) (blockFrame w a b) w h).x) ∧
    (∀ w h a b a2 b2 : ℕ, 0 < w → 0 < h →
      motionThreshold w h ≤
        ((motionStats blackFrame (blockFrame w a b) w h).changeCount : ℚ) →
      motionThreshold w h ≤
        ((motionStats blackFrame (blockFrame w a2 b2) w h).changeCount : ℚ) →
      blockMean w a2 b2 ≤ blockMean w a b →
      (detectMotion (some blackFrame) (blockFrame w a b) w h).x ≤
        (detectMotion (some blackFrame) (blockFrame w a2 b2) w h).x) ∧
    (∀ w h a b : ℕ, 0 < w → 0 < h →
      motionThreshold w h ≤
        ((motionStats blackFrame (blockFrame w a b) w h).changeCount : ℚ) →
      blockMean w a b ≤ (w : ℚ) / 4 →
      (detectMotion (some blackFrame) (blockFrame w a b) w h).x = 1) := by
  refine ⟨?_, ?_, ?_⟩
  · intro w h a b hw hh hb hthr
    rw [blockMotion_x w h a b hw hh hthr]
    apply clamp1_pos
    have hw' : (0:ℚ) < (w : ℚ) := by exact_mod_cast hw
    apply div_pos
    · have hμ : blockMean w a b ≤ (b : ℚ) :=
        blockMean_le w a b (blockCols_pos w h a b hw hh hthr).1
      have hbw : ((2 * b : ℕ) : ℚ) < (w : ℚ) := by exact_mod_cast hb
      push_cast at hbw
      linarith
    · positivity
  · intro w h a b a2 b2 hw hh h1 h2 hmean
    rw [blockMotion_x w h a b hw hh h1, blockMotion_x w h a2 b2 hw hh h2]
    apply clamp1_mono
    have hw' : (0:ℚ) < (w : ℚ) := by exact_mod_cast hw
    have hd : (0:ℚ) < (w : ℚ) / 2 * (1 / 2) := by positivity
    rw [div_le_div_iff₀ hd hd]
    nlinarith
  · intro w h a b hw hh hthr hsat
    rw [blockMotion_x w h a b hw hh hthr]
    apply clamp1_eq_one
    have hw' : (0:ℚ) < (w : ℚ) := by exact_mod_cast hw
    rw [le_div_iff₀ (by positivity)]
    linarith

/-- Witness for `mirror_correction`: a 32×8 frame pair changing exactly the
sampled column 8 (left of center 16) yields a positive x. -/
theorem mirror_correction_witness :
    0 < (detectMotion (some blackFrame) (blockFrame 32 8 8) 32 8).x :=
  mirror_correction.1 32 8 8 8 (by decide) (by decide) (by decide)
    (by
      have hs : motionStats blackFrame (blockFrame 32 8 8) 32 8 = ⟨1, 8, 0⟩ := by
        rw [motionStats_eval]
        decide
      rw [hs]
      unfold motionThreshold
      norm_num)

/-- Helper: membership in a descending insertion. -/
theorem mem_insertDesc {x e : ScoreEntry} {l : List ScoreEntry} :
    x ∈ insertDesc e l ↔ x = e ∨ x ∈ l := by
  induction l with
  | nil => simp [insertDesc]
  | cons a t ih =>
    unfold insertDesc
    split
    · simp [List.mem_cons]
    · simp only [List.mem_cons, ih]
      tauto

/-- Helper: descending insertion onto a sorted list stays sorted. -/
theorem sortedDesc_insertDesc {e : ScoreEntry} {l : List ScoreEntry}
    (h : SortedDesc l) : SortedDesc (insertDesc e l) := by
  induction l with
  | nil => simp [insertDesc, SortedDesc]
  | cons a t ih =>
    unfold SortedDesc at h ⊢
    rw [List.pairwise_cons] at h
    unfold insertDesc
    split
    · rename_i hlt
      rw [List.pairwise_cons]
      constructor
      · intro z hz
        rcases List.mem_cons.mp hz with rfl | hz
        · exact le_of_lt hlt
        · exact le_trans (h.1 z hz) (le_of_lt hlt)
      · exact List.pairwise_cons.mpr h
    · rename_i hge
      push_neg at hge
      rw [List.pairwise_cons]
      constructor
      · intro z hz
        rcases mem_insertDesc.mp hz with rfl | hz
        · exact hge
        · exact h.1 z hz
      · exact ih h.2

/-- Helper: descending insertion is a permutation of consing. -/
theorem perm_insertDesc (e : ScoreEntry) (l : List ScoreEntry) :
    List.Perm (insertDesc e l) (e :: l) := by
  induction l with
  | nil => rfl
  | cons a t ih =>
    unfold insertDesc
    split
    · rfl
    · exact List.Perm.trans (ih.cons a) (List.Perm.swap e a t)

/-- Helper: the descending sort permutes its input. -/
theorem perm_sortDesc (l : List ScoreEntry) : List.Perm (sortDesc l) l := by
  induction l with
  | nil => rfl
  | cons a t ih =>
    unfold sortDesc
    exact List.Perm.trans (perm_insertDesc _ _) (ih.cons a)

/-- Helper: the descending sort keeps the length. -/
theorem length_sortDesc (l : List ScoreEntry) : (sortDesc l).length = l.length :=
  (perm_sortDesc l).length_eq

/-- Helper: the descending sort is sorted. -/
theorem sortedDesc_sortDesc (l : List ScoreEntry) : SortedDesc (sortDesc l) := by
  induction l with
  | nil => exact List.Pairwise.nil
  | cons a t ih => exact sortedDesc_insertDesc ih

/-- Helper: a saved leaderboard is sorted descending by score. -/
theorem sortedDesc_saveScore (lb : List ScoreEntry) (e : ScoreEntry) :
    SortedDesc (saveScore lb e) :=
  List.Pairwise.sublist (List.take_sublist _ _) (sortedDesc_sortDesc _)

/-- Helper: the saved leaderboard's length. -/
theorem length_saveScore (lb : List ScoreEntry) (e : ScoreEntry) :
    (saveScore lb e).length = min (lb.length + 1) 10 := by
  unfold saveScore
  rw [List.length_take, length_sortDesc, List.length_append]
  simp
  omega

/-- Helper: sorted plus distinct scores gives strictly sorted. -/
theorem strictDesc_of {l : List ScoreEntry} (hs : SortedDesc l) (hd : DistinctScores l) :
    StrictDesc l := by
  unfold SortedDesc DistinctScores StrictDesc at *
  exact (hs.and hd).imp fun hab => lt_of_le_of_ne hab.1 (Ne.symm hab.2)

/-- Helper: strictly sorted gives distinct scores. -/
theorem distinct_of_strict {l : List ScoreEntry} (h : StrictDesc l) : DistinctScores l := by
  unfold StrictDesc DistinctScores at *
  exact h.imp fun hab => ne_of_gt hab

/-- Helper: distinct scores give no duplicate entries. -/
theorem nodup_of_distinct {l : List ScoreEntry} (h : DistinctScores l) : l.Nodup := by
  unfold DistinctScores at h
  exact h.imp fun hab hEq => hab (by rw [hEq])

/-- Helper: distinct scores transfer along permutations. -/
theorem distinct_perm {l l2 : List ScoreEntry} (hp : List.Perm l l2) (h : DistinctScores l) :
    DistinctScores l2 := by
  unfold DistinctScores at *
  exact (hp.pairwise_iff fun hab => Ne.symm hab).mp h

/-- Helper: one save preserves the leaderboard invariant when the new entry's
score differs from all seen scores. -/
theorem storeInv_step (seen stored : List ScoreEntry) (e : ScoreEntry)
    (hfresh : ∀ p ∈ seen, p.score ≠ e.score)
    (hinv : StoreInv seen stored) :
    StoreInv (seen ++ [e]) (saveScore stored e) := by
  obtain ⟨hlen, hsub, hdrop, hstrict⟩ := hinv
  have hdistSE : DistinctScores (stored ++ [e]) := by
    unfold DistinctScores
    rw [List.pairwise_append]
    refine ⟨distinct_of_strict hstrict, List.pairwise_singleton _ _, ?_⟩
    intro x hx y hy
    rw [List.mem_singleton] at hy
    subst hy
    exact hfresh x (hsub x hx)
  have hpermL : List.Perm (sortDesc (stored ++ [e])) (stored ++ [e]) := perm_sortDesc _
  have hstrictL : StrictDesc (sortDesc (stored ++ [e])) :=
    strictDesc_of (sortedDesc_sortDesc _) (distinct_perm hpermL.symm hdistSE)
  set L := sortDesc (stored ++ [e]) with hL
  set T := L.take 10 with hT
  have hTD : T ++ L.drop 10 = L := List.take_append_drop 10 L
  have hcross : ∀ p ∈ T, ∀ q ∈ L.drop 10, q.score < p.score := by
    have hst := hstrictL
    unfold StrictDesc at hst
    rw [← hTD, List.pairwise_append] at hst
    intro p hp q hq
    exact hst.2.2 p hp q hq
  have hmemL : ∀ x ∈ L, x ∈ stored ++ [e] := fun x hx => hpermL.mem_iff.mp hx
  have hmemT : ∀ x ∈ T, x ∈ stored ++ [e] := fun x hx => hmemL x (List.take_subset _ _ hx)
  have hlenL : L.length = stored.length + 1 := by
    rw [hL, length_sortDesc, List.length_append, List.length_singleton]
  refine ⟨?_, ?_, ?_, List.Pairwise.sublist (List.take_sublist _ _) hstrictL⟩
  · show T.length = min (seen ++ [e]).length 10
    rw [hT, List.length_take, hlenL, List.length_append, List.length_singleton]
    omega
  · intro x hx
    rcases List.mem_append.mp (hmemT x hx) with hx2 | hx2
    · exact List.mem_append_left _ (hsub x hx2)
    · exact List.mem_append_right _ hx2
  · intro y hy hyT x hx
    by_cases hyO : y ∈ stored ++ [e]
    · have hyL : y ∈ L := hpermL.mem_iff.mpr hyO
      have hyD : y ∈ L.drop 10 := by
        rcases List.mem_append.mp (hTD ▸ hyL) with h | h
        · exact absurd h hyT
        · exact h
      exact hcross x hx y hyD
    · have hySeen : y ∈ seen := by
        rcases List.mem_append.mp hy with h | h
        · exact h
        · exact absurd (List.mem_append_right stored h) hyO
      have hyStored : y ∉ stored := fun hc => hyO (List.mem_append_left _ hc)
      have hyLt : ∀ z ∈ stored, y.score < z.score := hdrop y hySeen hyStored
      rcases List.mem_append.mp (hmemT x hx) with hxS | hxE
      · exact hyLt x hxS
      · rw [List.mem_singleton] at hxE
        subst hxE
        have hfull : stored.length = 10 := by
          by_contra hne10
          have hlen2 : stored.length = seen.length := by omega
          have hnod : stored.Nodup := nodup_of_distinct (distinct_of_strict hstrict)
          have hperm2 : List.Perm stored seen :=
            (hnod.subperm fun z hz => hsub z hz).perm_of_length_le (by omega)
          exact hyStored (hperm2.mem_iff.mpr hySeen)
        have hlenD : (L.drop 10).length = 1 := by
          rw [List.length_drop, hlenL, hfull]
        obtain ⟨z, hz⟩ : ∃ z, z ∈ L.drop 10 := by
          rcases hD : L.drop 10 with _ | ⟨z, t⟩
          · rw [hD] at hlenD
            simp at hlenD
          · exact ⟨z, by simp [hD]⟩
        have hzS : z ∈ stored := by
          rcases List.mem_append.mp (hmemL z (List.drop_subset _ _ hz)) with h | h
          · exact h
          · rw [List.mem_singleton] at h
            subst h
            exact absurd (hcross _ hx z hz) (lt_irrefl _)
        exact lt_trans (hyLt z hzS) (hcross _ hx z hz)

/-- Helper: folding saves from any invariant state keeps the invariant. -/
theorem storeInv_fold (es : List ScoreEntry) :
    ∀ (seen stored : List ScoreEntry),
      DistinctScores (seen ++ es) → StoreInv seen stored →
      StoreInv (seen ++ es) (es.foldl saveScore stored) := by
  induction es with
  | nil =>
    intro seen stored _ h
    simpa using h
  | cons e t ih =>
    intro seen stored hd hinv
    have hfresh : ∀ p ∈ seen, p.score ≠ e.score := by
      unfold DistinctScores at hd
      rw [List.pairwise_append] at hd
      intro p hp
      exact hd.2.2 p hp e (List.mem_cons_self _ _)
    have h1 : StoreInv (seen ++ [e]) (saveScore stored e) :=
      storeInv_step seen stored e hfresh hinv
    have hd2 : DistinctScores ((seen ++ [e]) ++ t) := by
      unfold DistinctScores at *
      rwa [List.append_assoc, List.singleton_append]
    have h2 := ih (seen ++ [e]) (saveScore stored e) hd2 h1
    rw [List.append_assoc, List.singleton_append] at h2
    rw [List.foldl_cons]
    exact h2

/-- C8: every save leaves the stored leaderboard sorted descending by score
and of length at most 10; and over any sequence of saves with pairwise
distinct scores, an entry with at least 10 strictly higher-scoring saved
entries (i.e. scoring below the 10th-highest) is absent from the store. -/
theorem leaderboard_save_props :
    (∀ (lb : List ScoreEntry) (e : ScoreEntry), SortedDesc (saveScore lb e)) ∧
    (∀ (lb : List ScoreEntry) (e : ScoreEntry), (saveScore lb e).length ≤ 10) ∧
    (∀ (es : List ScoreEntry) (d : ScoreEntry),
      DistinctScores es → d ∈ es →
      10 ≤ (es.filter fun y => d.score < y.score).length →
      d ∉ saveAll es) := by
  refine ⟨fun lb e => sortedDesc_saveScore lb e, fun lb e => ?_, ?_⟩
  · rw [length_saveScore]
    omega
  · intro es d hdist hmem hcount hin
    have hinv : StoreInv es (saveAll es) := by
      have h0 : StoreInv [] [] :=
        ⟨by simp, by simp, by simp, List.Pairwise.nil⟩
      have h1 := storeInv_fold es [] [] (by simpa using hdist) h0
      simpa [saveAll] using h1
    obtain ⟨hlen, hsub, hdrop, hstrict⟩ := hinv
    set F := es.filter fun y => d.score < y.score with hF
    have hFsub : ∀ y ∈ F, y ∈ saveAll es := by
      intro y hy
      rw [hF, List.mem_filter] at hy
      by_contra hyNot
      have h1 := hdrop y hy.1 hyNot d hin
      have h2 : d.score < y.score := by simpa using hy.2
      linarith
    have hdF : d ∉ F := by
      rw [hF, List.mem_filter]
      rintro ⟨-, h⟩
      simp at h
    have hFnod : F.Nodup := (nodup_of_distinct hdist).filter _
    have hnodCons : (d :: F).Nodup := List.nodup_cons.mpr ⟨hdF, hFnod⟩
    have hsubCons : (d :: F) ⊆ saveAll es := by
      intro z hz
      rcases List.mem_cons.mp hz with rfl | hz
      · exact hin
      · exact hFsub z hz
    have hle := (hnodCons.subperm hsubCons).length_le
    rw [List.length_cons] at hle
    omega

/-- Witness for `leaderboard_save_props`: eleven saves with distinct scores;
the score-0 entry lies below the 10th-highest and is not stored. -/
theorem leaderboard_save_props_witness :
    (⟨"k", 0, 0⟩ : ScoreEntry) ∉ saveAll
      [⟨"k", 0, 0⟩, ⟨"a", 1, 0⟩, ⟨"b", 2, 0⟩, ⟨"c", 3, 0⟩, ⟨"d", 4, 0⟩, ⟨"e", 5, 0⟩,
        ⟨"f", 6, 0⟩, ⟨"g", 7, 0⟩, ⟨"h", 8, 0⟩, ⟨"i", 9, 0⟩, ⟨"j", 10, 0⟩] :=
  leaderboard_save_props.2.2
    [⟨"k", 0, 0⟩, ⟨"a", 1, 0⟩, ⟨"b", 2, 0⟩, ⟨"c", 3, 0⟩, ⟨"d", 4, 0⟩, ⟨"e", 5, 0⟩,
      ⟨"f", 6, 0⟩, ⟨"g", 7, 0⟩, ⟨"h", 8, 0⟩, ⟨"i", 9, 0⟩, ⟨"j", 10, 0⟩]
    ⟨"k", 0, 0⟩ (by unfold DistinctScores; decide) (by decide) (by decide)

end HandSnake
